import Mathlib

/-!
Shallow embedding of the drawing module `sdl2/ext/draw.py`: the color
resolver `prepare_color`, the rectangle fill engine `fill`, and the line
rasterizer `line` (axis-aligned special cases delegating to the fill
engine, and a Bresenham rasterizer with Liang-Barsky style clipping for
diagonal segments).  Pixel buffers are modelled as functions from element
offsets to packed pixel values; Python's arbitrary-precision integers are
modelled by `Int`, and the float arithmetic of the clipping helper by
exact integer fractions (`Frac`).
-/

namespace Draw

/-- A rectangle (x, y, w, h) in surface pixel coordinates, mirroring
`SDL_Rect`. -/
structure Rect where
  x : Int
  y : Int
  w : Int
  h : Int
  deriving DecidableEq, Repr

/-- The surface record consumed by the drawing routines: pitch (bytes per
scanline), bytes-per-pixel, clip rectangle, and the pixel buffer indexed
by element offset. -/
structure Surface where
  pitch : Int
  bpp : Int
  clip : Rect
  pixels : Int → Nat

/-- Number of buffer elements per row, `pitch / bpp` (exact whenever
`bpp` divides `pitch`, which holds for real SDL surfaces). -/
def ppr (s : Surface) : Int := s.pitch / s.bpp

/-- The pixel of `s` at surface coordinates (x, y): buffer element at
offset `y * (pitch / bpp) + x`. -/
def pixelAt (s : Surface) (x y : Int) : Nat := s.pixels (y * ppr s + x)

/-- (x, y) lies inside rectangle `r`. -/
def inRect (r : Rect) (x y : Int) : Prop :=
  r.x ≤ x ∧ x < r.x + r.w ∧ r.y ≤ y ∧ y < r.y + r.h

instance (r : Rect) (x y : Int) : Decidable (inRect r x y) :=
  inferInstanceAs (Decidable (_ ∧ _ ∧ _ ∧ _))

/-- Overwrite one buffer element. -/
def writePixel (s : Surface) (off : Int) (c : Nat) : Surface :=
  { s with pixels := fun o => if o = off then c else s.pixels o }

/-- Overwrite every listed buffer element with the packed color `c`. -/
def writeOffs (s : Surface) (c : Nat) (offs : List Int) : Surface :=
  offs.foldl (fun t o => writePixel t o c) s

/-- All coordinates of a rectangle, row by row. -/
def rectCoords (r : Rect) : List (Int × Int) :=
  (List.range r.h.toNat).flatMap fun (j : Nat) =>
    (List.range r.w.toNat).map fun (i : Nat) =>
      (r.x + (i : Int), r.y + (j : Int))

/-- Intersection of two rectangles (empty encoded by non-positive
width/height). -/
def intersect (a b : Rect) : Rect :=
  let x := max a.x b.x
  let y := max a.y b.y
  ⟨x, y, min (a.x + a.w) (b.x + b.w) - x, min (a.y + a.h) (b.y + b.h) - y⟩

/-- Modelled from the spec: the external `SDL_FillRect` call (the SDL
library itself is not part of this repository).  It writes the packed
color into every pixel of the target rectangle intersected with the
surface's clip rectangle; a `none` rectangle means the entire surface,
hence the clip rectangle itself. -/
def SDL_FillRect (s : Surface) (r : Option Rect) (c : Nat) : Surface :=
  let fr := match r with
    | none => s.clip
    | some r => intersect r s.clip
  let p := ppr s
  writeOffs s c ((rectCoords fr).map fun q => q.2 * p + q.1)

/-- Modelled from the spec: the external batched `SDL_FillRects` call,
equivalent to filling each rectangle in order. -/
def SDL_FillRects (s : Surface) (rs : List Rect) (c : Nat) : Surface :=
  rs.foldl (fun t r => SDL_FillRect t (some r) c) s

/-- Observable trace of which SDL fill entry point a `fill` call used:
one batched multi-rectangle call, or one single-rectangle call (with
`none` meaning the whole surface). -/
inductive FillCall where
  | batched (rs : List Rect)
  | single (r : Option Rect)
  deriving DecidableEq, Repr

/-- `fill(target, color, area)` from `draw.py`, after the area list has
been normalized to rectangles: more than 2 rectangles dispatch to the
batched call, exactly 1 to a single-rectangle call, anything else (0 or
2 rectangles) to a whole-surface call.  Returns the mutated surface and
the dispatch trace. -/
def fill (s : Surface) (c : Nat) (area : List Rect) : Surface × FillCall :=
  if 2 < area.length then
    (SDL_FillRects s area c, .batched area)
  else
    match area with
    | [r] => (SDL_FillRect s (some r) c, .single (some r))
    | _ => (SDL_FillRect s none c, .single none)

/-! Color resolver -/

/-- Pixel format descriptor: alpha mask plus per-channel loss and shift,
as consumed by the SDL packing routines. -/
structure PixelFormat where
  Amask : Nat
  Rloss : Nat
  Gloss : Nat
  Bloss : Nat
  Aloss : Nat
  Rshift : Nat
  Gshift : Nat
  Bshift : Nat
  Ashift : Nat
  deriving DecidableEq, Repr

/-- An (r, g, b, a) color value. -/
structure Color where
  r : Nat
  g : Nat
  b : Nat
  a : Nat
  deriving DecidableEq, Repr

/-- Modelled from the spec: the external `SDL_MapRGB` call packs the
three color channels through the format's channel layout, ignoring
alpha (the alpha bits are forced to the full alpha mask). -/
def SDL_MapRGB (f : PixelFormat) (r g b : Nat) : Nat :=
  ((r >>> f.Rloss) <<< f.Rshift) ||| ((g >>> f.Gloss) <<< f.Gshift) |||
    ((b >>> f.Bloss) <<< f.Bshift) ||| f.Amask

/-- Modelled from the spec: the external `SDL_MapRGBA` call packs all
four channels through the format's channel layout. -/
def SDL_MapRGBA (f : PixelFormat) (r g b a : Nat) : Nat :=
  ((r >>> f.Rloss) <<< f.Rshift) ||| ((g >>> f.Gloss) <<< f.Gshift) |||
    ((b >>> f.Bloss) <<< f.Bshift) ||| ((a >>> f.Aloss) <<< f.Ashift)

/-- The targets `prepare_color` dispatches on: a pixel format directly, a
surface (whose format is reachable through `format.contents`), a sprite
(format reachable through its surface), or anything else. -/
inductive ColorTarget where
  | pixelFormat (f : PixelFormat)
  | surf (f : PixelFormat)
  | sprite (f : PixelFormat)
  | other
  deriving DecidableEq, Repr

/-- The `pformat` selection chain of `prepare_color`: `None` exactly when
the target is none of the three recognized kinds. -/
def formatOf : ColorTarget → Option PixelFormat
  | .pixelFormat f => some f
  | .surf f => some f
  | .sprite f => some f
  | .other => none

/-- Errors raised by the drawing routines, one constructor per distinct
error site: the two `ValueError`s of `line` (bad width, malformed point
list), the `TypeError` (unsupported target / `int(None)`), and the
`UnsupportedError` (24bpp surface, width > 1 on a diagonal). -/
inductive DrawError where
  | widthError
  | pointsError
  | typeError
  | unsupportedError
  deriving DecidableEq, Repr

/-- `prepare_color(color, target)` from `draw.py`: locate the pixel
format descriptor (raising a `TypeError` when none is found), then pack
as RGBA when the format has a non-zero alpha mask and as RGB otherwise. -/
def prepare_color (c : Color) (t : ColorTarget) : Except DrawError Nat :=
  match formatOf t with
  | none => .error .typeError
  | some f =>
    if f.Amask ≠ 0 then .ok (SDL_MapRGBA f c.r c.g c.b c.a)
    else .ok (SDL_MapRGB f c.r c.g c.b)

/-! Exact fractions (model of the Python float arithmetic in the
clipping helper) -/

/-- An exact fraction `num / den`; every constructor used below keeps
`den` positive. -/
structure Frac where
  num : Int
  den : Int
  deriving DecidableEq, Repr

/-- Value comparison of two fractions (valid when both denominators are
positive). -/
def Frac.lt (a b : Frac) : Prop := a.num * b.den < b.num * a.den

instance (a b : Frac) : Decidable (a.lt b) :=
  inferInstanceAs (Decidable (_ < _))

/-- The larger of two fractions. -/
def Frac.fmax (a b : Frac) : Frac := if a.lt b then b else a

/-- The smaller of two fractions. -/
def Frac.fmin (a b : Frac) : Frac := if b.lt a then b else a

/-- The integer `n` as a fraction. -/
def Frac.ofInt (n : Int) : Frac := ⟨n, 1⟩

/-- The quotient `q / p` as a fraction with positive denominator
(requires `p ≠ 0`). -/
def Frac.quot (q p : Int) : Frac := if p < 0 then ⟨-q, -p⟩ else ⟨q, p⟩

/-- Truncation toward zero, Python's `int()` on the modelled float. -/
def Frac.trunc (f : Frac) : Int := f.num.tdiv f.den

/-- The rational value of a fraction (used only in proofs). -/
def Frac.val (f : Frac) : ℚ := (f.num : ℚ) / (f.den : ℚ)

/-! The clipping helper -/

/-- One Liang-Barsky boundary test: given boundary data (p, q), narrow
the parameter interval [t0, t1], or report that the segment is entirely
outside. -/
def clipT (p q : Int) (t0 t1 : Frac) : Option (Frac × Frac) :=
  if p = 0 then
    if q < 0 then none else some (t0, t1)
  else if p < 0 then
    if t1.lt (Frac.quot q p) then none
    else some ((Frac.quot q p).fmax t0, t1)
  else
    if (Frac.quot q p).lt t0 then none
    else some (t0, (Frac.quot q p).fmin t1)

/-- Modelled from the spec: `clipline` from the algorithms module, which
is not under `src/`.  Per the spec it clips the segment (x1,y1)-(x2,y2)
against the inclusive bounds `left, top, right, bottom` with a
parametric (Liang-Barsky) algorithm, returning the portion of the
segment inside the rectangle, or a sentinel (`none`, the model of the
all-`None` tuple) when the segment lies entirely outside.  The
endpoints returned are exact fractions, modelling the floats returned
by the Python code. -/
def clipline (left top right bottom x1 y1 x2 y2 : Int) :
    Option (Frac × Frac × Frac × Frac) :=
  (clipT (-(x2 - x1)) (x1 - left) (Frac.ofInt 0) (Frac.ofInt 1)).bind fun s1 =>
  (clipT (x2 - x1) (right - x1) s1.1 s1.2).bind fun s2 =>
  (clipT (-(y2 - y1)) (y1 - top) s2.1 s2.2).bind fun s3 =>
  (clipT (y2 - y1) (bottom - y1) s3.1 s3.2).bind fun s4 =>
  some (⟨x1 * s4.1.den + s4.1.num * (x2 - x1), s4.1.den⟩,
        ⟨y1 * s4.1.den + s4.1.num * (y2 - y1), s4.1.den⟩,
        ⟨x1 * s4.2.den + s4.2.num * (x2 - x1), s4.2.den⟩,
        ⟨y1 * s4.2.den + s4.2.num * (y2 - y1), s4.2.den⟩)

/-! The Bresenham loop -/

/-- The Bresenham loop of `line` (lines 169-179 of `draw.py`), made
total by structural recursion on `fuel` (proved sufficient below): it
returns the list of pixel coordinates written, in order, together with
`true` when the loop reached its `break` (and `false` when the fuel ran
out first, which never happens for the fuel used by `line`). -/
def bresPoints (fuel : Nat) (x1 y1 x2 y2 dx dy err sx sy : Int) :
    List (Int × Int) × Bool :=
  match fuel with
  | 0 => ([], false)
  | fuel + 1 =>
    if x1 = x2 ∧ y1 = y2 then ([(x1, y1)], true)
    else
      let e2 := err * 2
      let err1 := if e2 > dy then err + dy else err
      let x1' := if e2 > dy then x1 + sx else x1
      let err2 := if e2 < dx then err1 + dx else err1
      let y1' := if e2 < dx then y1 + sy else y1
      let rest := bresPoints fuel x1' y1' x2 y2 dx dy err2 sx sy
      ((x1, y1) :: rest.1, rest.2)

/-- The pixels visited by the Bresenham loop started as `line` starts
it: `dx = |x2-x1|`, `dy = -|y2-y1|`, `err = dx + dy`, unit steps by the
sign of the endpoint deltas.  The fuel `dx - dy + 1` is an upper bound
on the iteration count, proved exact below. -/
def bresLine (x1 y1 x2 y2 : Int) : List (Int × Int) :=
  (bresPoints (|x2 - x1| - -|y2 - y1|).toNat.succ x1 y1 x2 y2
    (|x2 - x1|) (-|y2 - y1|) (|x2 - x1| + -|y2 - y1|)
    (if x1 > x2 then -1 else 1) (if y1 > y2 then -1 else 1)).1

/-! The line rasterizer -/

/-- One (x1, y1, x2, y2) segment of a `line` call. -/
structure Seg where
  x1 : Int
  y1 : Int
  x2 : Int
  y2 : Int
  deriving DecidableEq, Repr

/-- Split the flat point list into consecutive 4-tuples, as the
`for idx in range(0, pcount, 4)` loop of `line` does. -/
def toSegs : List Int → List Seg
  | x1 :: y1 :: x2 :: y2 :: rest => ⟨x1, y1, x2, y2⟩ :: toSegs rest
  | _ => []

/-- The per-write buffer offset of the Bresenham loop:
`int(y1 * frac + x1)` where `frac = pitch / bpp` is float division in
the source, modelled as the exact fraction `(y1 * pitch + x1 * bpp) / bpp`
truncated toward zero. -/
def bresOffset (pitch bpp x y : Int) : Int :=
  Frac.trunc ⟨y * pitch + x * bpp, bpp⟩

/-- The diagonal-segment rasterization: write the packed color at the
Bresenham offsets of the (already clipped and truncated) segment. -/
def writeBres (s : Surface) (c : Nat) (x1 y1 x2 y2 : Int) : Surface :=
  writeOffs s c ((bresLine x1 y1 x2 y2).map fun q =>
    bresOffset s.pitch s.bpp q.1 q.2)

/-- The body of `line`'s per-segment loop (lines 134-179 of `draw.py`):
vertical and horizontal segments become one `SDL_FillRect` call;
diagonal segments with width ≠ 1 raise `UnsupportedError`; diagonal
width-1 segments are clipped and rasterized.  When `clipline` returns
its all-`None` sentinel, the source applies `int()` to `None` on line
157 — before the `if x1 is None` check on line 158 — so the segment
raises a `TypeError` instead of being skipped. -/
def lineSeg (s : Surface) (c : Nat) (w : Int) (g : Seg) :
    Surface × Option DrawError :=
  if g.x1 = g.x2 then
    (SDL_FillRect s (some (if g.y1 < g.y2 then
        ⟨g.x1 - w / 2, g.y1, w, g.y2 - g.y1⟩ else
        ⟨g.x1 - w / 2, g.y2, w, g.y1 - g.y2⟩)) c, none)
  else if g.y1 = g.y2 then
    (SDL_FillRect s (some (if g.x1 < g.x2 then
        ⟨g.x1, g.y1 - w / 2, g.x2 - g.x1, w⟩ else
        ⟨g.x2, g.y1 - w / 2, g.x1 - g.x2, w⟩)) c, none)
  else if w ≠ 1 then
    (s, some .unsupportedError)
  else
    match clipline s.clip.x s.clip.y (s.clip.x + s.clip.w - 1)
        (s.clip.y + s.clip.h - 1) g.x1 g.y1 g.x2 g.y2 with
    | none => (s, some .typeError)
    | some (a, b, a2, b2) =>
      (writeBres s c a.trunc b.trunc a2.trunc b2.trunc, none)

/-- The segment loop of `line`: process segments in order, stopping at
the first raised error while keeping the writes already performed. -/
def lineLoop (c : Nat) (w : Int) : Surface → List Seg →
    Surface × Option DrawError
  | s, [] => (s, none)
  | s, g :: rest =>
    match lineSeg s c w g with
    | (s', none) => lineLoop c w s' rest
    | (s', some e) => (s', some e)

/-- `line(target, color, dline, width)` from `draw.py`, with the color
already packed: validate the width, the point-list length, and the
bytes-per-pixel, then draw each segment.  Returns the mutated surface
and the raised error, if any. -/
def line (s : Surface) (c : Nat) (dline : List Int) (w : Int) :
    Surface × Option DrawError :=
  if w < 1 then (s, some .widthError)
  else if dline.length % 4 ≠ 0 then (s, some .pointsError)
  else if s.bpp = 3 then (s, some .unsupportedError)
  else lineLoop c w s (toSegs dline)

/-! Helper lemmas: buffer writes and rectangle fills -/

theorem writeOffs_pitch (c : Nat) (offs : List Int) (s : Surface) :
    (writeOffs s c offs).pitch = s.pitch := by
  induction offs generalizing s with
  | nil => rfl
  | cons a rest ih => exact ih (writePixel s a c)

theorem writeOffs_bpp (c : Nat) (offs : List Int) (s : Surface) :
    (writeOffs s c offs).bpp = s.bpp := by
  induction offs generalizing s with
  | nil => rfl
  | cons a rest ih => exact ih (writePixel s a c)

theorem writeOffs_clip (c : Nat) (offs : List Int) (s : Surface) :
    (writeOffs s c offs).clip = s.clip := by
  induction offs generalizing s with
  | nil => rfl
  | cons a rest ih => exact ih (writePixel s a c)

theorem writeOffs_pixels_of_not_mem (c : Nat) (offs : List Int)
    (s : Surface) (o : Int) (h : o ∉ offs) :
    (writeOffs s c offs).pixels o = s.pixels o := by
  induction offs generalizing s with
  | nil => rfl
  | cons a rest ih =>
    have ha : o ≠ a := fun he => h (he ▸ List.mem_cons_self a rest)
    have hr : o ∉ rest := fun hm => h (List.mem_cons_of_mem a hm)
    calc (writeOffs (writePixel s a c) c rest).pixels o
        = (writePixel s a c).pixels o := ih (writePixel s a c) hr
      _ = s.pixels o := by simp [writePixel, ha]

theorem writeOffs_pixels_of_mem (c : Nat) (offs : List Int)
    (s : Surface) (o : Int) (h : o ∈ offs) :
    (writeOffs s c offs).pixels o = c := by
  induction offs generalizing s with
  | nil => exact absurd h (List.not_mem_nil o)
  | cons a rest ih =>
    by_cases hr : o ∈ rest
    · exact ih (writePixel s a c) hr
    · have ha : o = a := by
        rcases List.mem_cons.mp h with h1 | h1
        · exact h1
        · exact absurd h1 hr
      calc (writeOffs (writePixel s a c) c rest).pixels o
          = (writePixel s a c).pixels o :=
            writeOffs_pixels_of_not_mem c rest (writePixel s a c) o hr
        _ = c := by simp [writePixel, ha]

theorem mem_rectCoords {r : Rect} {p : Int × Int} :
    p ∈ rectCoords r ↔
      r.x ≤ p.1 ∧ p.1 < r.x + r.w ∧ r.y ≤ p.2 ∧ p.2 < r.y + r.h := by
  obtain ⟨px, py⟩ := p
  constructor
  · intro hmem
    rcases List.mem_flatMap.mp hmem with ⟨j, hj, hin⟩
    rcases List.mem_map.mp hin with ⟨i, hi, he⟩
    rw [List.mem_range] at hj hi
    rw [Prod.mk.injEq] at he
    obtain ⟨h1, h2⟩ := he
    refine ⟨?_, ?_, ?_, ?_⟩ <;> omega
  · rintro ⟨h1, h2, h3, h4⟩
    apply List.mem_flatMap.mpr
    refine ⟨(py - r.y).toNat, List.mem_range.mpr (by omega), ?_⟩
    apply List.mem_map.mpr
    refine ⟨(px - r.x).toNat, List.mem_range.mpr (by omega), ?_⟩
    have e1 : r.x + ((px - r.x).toNat : Int) = px := by omega
    have e2 : r.y + ((py - r.y).toNat : Int) = py := by omega
    rw [e1, e2]

theorem inRect_intersect {a b : Rect} {x y : Int} :
    inRect (intersect a b) x y ↔ inRect a x y ∧ inRect b x y := by
  simp only [inRect, intersect]
  omega

theorem offset_inj {P x1 y1 x2 y2 : Int} (h1 : 0 ≤ x1) (h2 : x1 < P)
    (h3 : 0 ≤ x2) (h4 : x2 < P) (he : y1 * P + x1 = y2 * P + x2) :
    x1 = x2 ∧ y1 = y2 := by
  have key : (y1 - y2) * P = x2 - x1 := by linear_combination he
  have hy : y1 = y2 := by
    by_contra hne
    rcases (by omega : y1 - y2 ≤ -1 ∨ 1 ≤ y1 - y2) with hd | hd
    · have : (y1 - y2) * P ≤ (-1) * P := by
        apply mul_le_mul_of_nonneg_right hd (by omega)
      nlinarith
    · have : 1 * P ≤ (y1 - y2) * P := by
        apply mul_le_mul_of_nonneg_right hd (by omega)
      nlinarith
  subst hy
  simp only [sub_self, zero_mul] at key
  omega

/-- The conditions under which pixel (px, py) is a genuine pixel of the
surface outside the clip rectangle: the clip rectangle sits inside a
buffer row (an SDL invariant), and the pixel's column index is a valid
column. -/
def OutsidePix (s : Surface) (px py : Int) : Prop :=
  0 ≤ s.clip.x ∧ s.clip.x + s.clip.w ≤ ppr s ∧ 0 ≤ px ∧ px < ppr s ∧
    ¬ inRect s.clip px py

instance (s : Surface) (px py : Int) : Decidable (OutsidePix s px py) :=
  inferInstanceAs (Decidable (_ ∧ _ ∧ _ ∧ _ ∧ _))

theorem offset_ne_of_inRect {s : Surface} {px py qx qy : Int}
    (hout : OutsidePix s px py) (hin : inRect s.clip qx qy) :
    qy * ppr s + qx ≠ py * ppr s + px := by
  obtain ⟨hcx, hcw, hpx, hpxw, hnot⟩ := hout
  obtain ⟨g1, g2, g3, g4⟩ := hin
  intro he
  have := offset_inj (by omega) (by omega) hpx hpxw he
  exact hnot ⟨by omega, by omega, by omega, by omega⟩

theorem SDL_FillRect_pitch (s : Surface) (r : Option Rect) (c : Nat) :
    (SDL_FillRect s r c).pitch = s.pitch := writeOffs_pitch ..

theorem SDL_FillRect_bpp (s : Surface) (r : Option Rect) (c : Nat) :
    (SDL_FillRect s r c).bpp = s.bpp := writeOffs_bpp ..

theorem SDL_FillRect_clip (s : Surface) (r : Option Rect) (c : Nat) :
    (SDL_FillRect s r c).clip = s.clip := writeOffs_clip ..

theorem SDL_FillRect_frame {s : Surface} {px py : Int}
    (r : Option Rect) (c : Nat) (hout : OutsidePix s px py) :
    (SDL_FillRect s r c).pixels (py * ppr s + px) =
      s.pixels (py * ppr s + px) := by
  apply writeOffs_pixels_of_not_mem
  intro hmem
  rcases List.mem_map.mp hmem with ⟨q, hq, he⟩
  have hqin : inRect s.clip q.1 q.2 := by
    cases r with
    | none =>
      have := mem_rectCoords.mp hq
      exact ⟨this.1, this.2.1, this.2.2.1, this.2.2.2⟩
    | some r0 =>
      have := mem_rectCoords.mp hq
      exact (inRect_intersect.mp ⟨this.1, this.2.1, this.2.2.1, this.2.2.2⟩).2
  exact offset_ne_of_inRect hout hqin he

theorem SDL_FillRect_covers {s : Surface} {px py : Int} (c : Nat)
    (hin : inRect s.clip px py) :
    (SDL_FillRect s none c).pixels (py * ppr s + px) = c := by
  apply writeOffs_pixels_of_mem
  apply List.mem_map.mpr
  exact ⟨(px, py), mem_rectCoords.mpr ⟨hin.1, hin.2.1, hin.2.2.1, hin.2.2.2⟩, rfl⟩

/-! Helper lemmas: fractions -/

theorem Frac.lt_iff {a b : Frac} (ha : 0 < a.den) (hb : 0 < b.den) :
    a.lt b ↔ a.val < b.val := by
  unfold Frac.lt Frac.val
  rw [div_lt_div_iff (by exact_mod_cast ha) (by exact_mod_cast hb)]
  constructor
  · intro h
    exact_mod_cast h
  · intro h
    exact_mod_cast h

theorem Frac.fmax_den {a b : Frac} (ha : 0 < a.den) (hb : 0 < b.den) :
    0 < (a.fmax b).den := by
  unfold Frac.fmax
  split
  · exact hb
  · exact ha

theorem Frac.fmin_den {a b : Frac} (ha : 0 < a.den) (hb : 0 < b.den) :
    0 < (a.fmin b).den := by
  unfold Frac.fmin
  split
  · exact hb
  · exact ha

theorem Frac.val_fmax {a b : Frac} (ha : 0 < a.den) (hb : 0 < b.den) :
    (a.fmax b).val = max a.val b.val := by
  unfold Frac.fmax
  split
  case isTrue h =>
    rw [max_eq_right ((Frac.lt_iff ha hb).mp h).le]
  case isFalse h =>
    rw [max_eq_left (not_lt.mp (fun hv => h ((Frac.lt_iff ha hb).mpr hv)))]

theorem Frac.val_fmin {a b : Frac} (ha : 0 < a.den) (hb : 0 < b.den) :
    (a.fmin b).val = min a.val b.val := by
  unfold Frac.fmin
  split
  case isTrue h =>
    rw [min_eq_right ((Frac.lt_iff hb ha).mp h).le]
  case isFalse h =>
    rw [min_eq_left (not_lt.mp (fun hv => h ((Frac.lt_iff hb ha).mpr hv)))]

theorem Frac.quot_den_pos {q p : Int} (hp : p ≠ 0) :
    0 < (Frac.quot q p).den := by
  unfold Frac.quot
  split
  case isTrue h =>
    show 0 < -p
    omega
  case isFalse h =>
    show 0 < p
    omega

theorem Frac.val_quot {q p : Int} (hp : p ≠ 0) :
    (Frac.quot q p).val = (q : ℚ) / (p : ℚ) := by
  unfold Frac.quot Frac.val
  split
  · push_cast
    rw [neg_div_neg_eq]
  · rfl

theorem Frac.den_ofInt (n : Int) : (Frac.ofInt n).den = 1 := rfl

theorem Frac.val_ofInt (n : Int) : (Frac.ofInt n).val = (n : ℚ) := by
  unfold Frac.ofInt Frac.val
  simp

theorem tdiv_bounds {n d lo hi : Int} (hd : 0 < d) (h1 : lo * d ≤ n)
    (h2 : n ≤ hi * d) : lo ≤ n.tdiv d ∧ n.tdiv d ≤ hi := by
  rcases le_or_lt 0 n with hn | hn
  · rw [Int.tdiv_eq_ediv hn hd.le]
    constructor
    · exact (Int.le_ediv_iff_mul_le hd).mpr h1
    · calc n / d ≤ hi * d / d := Int.ediv_le_ediv hd h2
        _ = hi := Int.mul_ediv_cancel _ (by omega)
  · have hneg : n.tdiv d = -((-n).tdiv d) := by rw [← Int.neg_tdiv, neg_neg]
    rw [Int.tdiv_eq_ediv (show (0 : Int) ≤ -n by omega) hd.le] at hneg
    constructor
    · rw [hneg, le_neg]
      calc (-n) / d ≤ -lo * d / d := Int.ediv_le_ediv hd (by linarith)
        _ = -lo := Int.mul_ediv_cancel _ (by omega)
    · rw [hneg, neg_le]
      exact (Int.le_ediv_iff_mul_le hd).mpr (by linarith)

theorem Frac.trunc_bounds {f : Frac} {lo hi : Int} (hd : 0 < f.den)
    (hlo : (lo : ℚ) ≤ f.val) (hhi : f.val ≤ (hi : ℚ)) :
    lo ≤ f.trunc ∧ f.trunc ≤ hi := by
  have hdQ : (0 : ℚ) < (f.den : ℚ) := by exact_mod_cast hd
  have h1 : lo * f.den ≤ f.num := by
    have := (le_div_iff hdQ).mp hlo
    exact_mod_cast this
  have h2 : f.num ≤ hi * f.den := by
    have := (div_le_iff hdQ).mp hhi
    exact_mod_cast this
  exact tdiv_bounds hd h1 h2

/-! Helper lemmas: clipping soundness -/

theorem clipT_sound {p q : Int} {t0 t1 r0 r1 : Frac}
    (h : clipT p q t0 t1 = some (r0, r1))
    (h0 : 0 < t0.den) (h1 : 0 < t1.den) (hle : t0.val ≤ t1.val) :
    0 < r0.den ∧ 0 < r1.den ∧ t0.val ≤ r0.val ∧ r1.val ≤ t1.val ∧
      r0.val ≤ r1.val ∧
      ∀ t : ℚ, r0.val ≤ t → t ≤ r1.val → (p : ℚ) * t ≤ (q : ℚ) := by
  unfold clipT at h
  split at h
  case isTrue hp =>
    split at h
    case isTrue hq => exact Option.noConfusion h
    case isFalse hq =>
      have hh := Option.some.inj h
      rw [Prod.mk.injEq] at hh
      obtain ⟨e0, e1⟩ := hh
      subst e0
      subst e1
      refine ⟨h0, h1, le_refl _, le_refl _, hle, fun t _ _ => ?_⟩
      rw [hp]
      simp only [Int.cast_zero, zero_mul]
      exact_mod_cast not_lt.mp hq
  split at h
  case isTrue hp hplt =>
    split at h
    case isTrue hlt => exact Option.noConfusion h
    case isFalse hnlt =>
      have hh := Option.some.inj h
      rw [Prod.mk.injEq] at hh
      obtain ⟨e0, e1⟩ := hh
      subst e0
      subst e1
      have hrd : 0 < (Frac.quot q p).den := Frac.quot_den_pos hp
      have hrm : ((Frac.quot q p).fmax t0).val =
          max (Frac.quot q p).val t0.val := Frac.val_fmax hrd h0
      have hrv : (Frac.quot q p).val = (q : ℚ) / (p : ℚ) := Frac.val_quot hp
      have hrle : (Frac.quot q p).val ≤ t1.val :=
        not_lt.mp (fun hv => hnlt ((Frac.lt_iff h1 hrd).mpr hv))
      refine ⟨Frac.fmax_den hrd h0, h1, ?_, le_refl _, ?_, ?_⟩
      · rw [hrm]
        exact le_max_right _ _
      · rw [hrm]
        exact max_le hrle hle
      · intro t ht _
        rw [hrm] at ht
        have hqp : (q : ℚ) / (p : ℚ) ≤ t := by
          rw [← hrv]
          exact le_trans (le_max_left _ _) ht
        have hpQ : (p : ℚ) < 0 := by exact_mod_cast hplt
        rw [mul_comm]
        exact (div_le_iff_of_neg hpQ).mp hqp
  case isFalse hp hplt =>
    split at h
    case isTrue hlt => exact Option.noConfusion h
    case isFalse hnlt =>
      have hh := Option.some.inj h
      rw [Prod.mk.injEq] at hh
      obtain ⟨e0, e1⟩ := hh
      subst e0
      subst e1
      have hppos : 0 < p := by omega
      have hrd : 0 < (Frac.quot q p).den := Frac.quot_den_pos hp
      have hrm : ((Frac.quot q p).fmin t1).val =
          min (Frac.quot q p).val t1.val := Frac.val_fmin hrd h1
      have hrv : (Frac.quot q p).val = (q : ℚ) / (p : ℚ) := Frac.val_quot hp
      have hrge : t0.val ≤ (Frac.quot q p).val :=
        not_lt.mp (fun hv => hnlt ((Frac.lt_iff hrd h0).mpr hv))
      refine ⟨h0, Frac.fmin_den hrd h1, le_refl _, ?_, ?_, ?_⟩
      · rw [hrm]
        exact min_le_right _ _
      · rw [hrm]
        exact le_min hrge hle
      · intro t _ ht
        rw [hrm] at ht
        have hqp : t ≤ (q : ℚ) / (p : ℚ) := by
          rw [← hrv]
          exact le_trans ht (min_le_left _ _)
        have hpQ : (0 : ℚ) < (p : ℚ) := by exact_mod_cast hppos
        rw [mul_comm]
        exact (le_div_iff hpQ).mp hqp

theorem coordVal (x d : Int) {t : Frac} (hd : 0 < t.den) :
    (Frac.val ⟨x * t.den + t.num * d, t.den⟩) =
      (x : ℚ) + t.val * (d : ℚ) := by
  unfold Frac.val
  have hne : (t.den : ℚ) ≠ 0 := by
    have : t.den ≠ 0 := hd.ne'
    exact_mod_cast this
  show ((x * t.den + t.num * d : Int) : ℚ) / ((t.den : Int) : ℚ) = _
  push_cast
  field_simp

set_option maxHeartbeats 2000000 in
theorem clipline_sound {left top right bottom x1 y1 x2 y2 : Int}
    {a b c d : Frac}
    (h : clipline left top right bottom x1 y1 x2 y2 = some (a, b, c, d)) :
    (0 < a.den ∧ 0 < b.den ∧ 0 < c.den ∧ 0 < d.den) ∧
    ((left : ℚ) ≤ a.val ∧ a.val ≤ (right : ℚ) ∧
     (top : ℚ) ≤ b.val ∧ b.val ≤ (bottom : ℚ) ∧
     (left : ℚ) ≤ c.val ∧ c.val ≤ (right : ℚ) ∧
     (top : ℚ) ≤ d.val ∧ d.val ≤ (bottom : ℚ)) := by
  unfold clipline at h
  rcases Option.bind_eq_some.mp h with ⟨⟨s10, s11⟩, e1, h⟩
  rcases Option.bind_eq_some.mp h with ⟨⟨s20, s21⟩, e2, h⟩
  rcases Option.bind_eq_some.mp h with ⟨⟨s30, s31⟩, e3, h⟩
  rcases Option.bind_eq_some.mp h with ⟨⟨s40, s41⟩, e4, h⟩
  have hh := Option.some.inj h
  rw [Prod.mk.injEq, Prod.mk.injEq, Prod.mk.injEq] at hh
  obtain ⟨ea, eb, ec, ed⟩ := hh
  have hstart0 : 0 < (Frac.ofInt 0).den := by
    rw [Frac.den_ofInt]
    omega
  have hstart1 : 0 < (Frac.ofInt 1).den := by
    rw [Frac.den_ofInt]
    omega
  have hstartle : (Frac.ofInt 0).val ≤ (Frac.ofInt 1).val := by
    rw [Frac.val_ofInt, Frac.val_ofInt]
    norm_num
  obtain ⟨d10, d11, l1, u1, o1, F1⟩ :=
    clipT_sound e1 hstart0 hstart1 hstartle
  obtain ⟨d20, d21, l2, u2, o2, F2⟩ := clipT_sound e2 d10 d11 o1
  obtain ⟨d30, d31, l3, u3, o3, F3⟩ := clipT_sound e3 d20 d21 o2
  obtain ⟨d40, d41, l4, u4, o4, F4⟩ := clipT_sound e4 d30 d31 o3
  have hin0a : s10.val ≤ s40.val := le_trans l2 (le_trans l3 l4)
  have hin0b : s40.val ≤ s11.val :=
    le_trans o4 (le_trans u4 (le_trans u3 u2))
  have hin1a : s10.val ≤ s41.val :=
    le_trans (le_trans (le_trans l2 l3) l4) o4
  have hin1b : s41.val ≤ s11.val := le_trans u4 (le_trans u3 u2)
  have G1a := F1 s40.val hin0a hin0b
  have G1b := F1 s41.val hin1a hin1b
  have G2a := F2 s40.val (le_trans l3 l4) (le_trans o4 (le_trans u4 u3))
  have G2b := F2 s41.val (le_trans (le_trans l3 l4) o4) (le_trans u4 u3)
  have G3a := F3 s40.val l4 (le_trans o4 u4)
  have G3b := F3 s41.val (le_trans l4 o4) u4
  have G4a := F4 s40.val (le_refl _) o4
  have G4b := F4 s41.val o4 (le_refl _)
  subst ea
  subst eb
  subst ec
  subst ed
  rw [coordVal x1 (x2 - x1) d40, coordVal y1 (y2 - y1) d40,
    coordVal x1 (x2 - x1) d41, coordVal y1 (y2 - y1) d41]
  push_cast at G1a G1b G2a G2b G3a G3b G4a G4b
  refine ⟨⟨d40, d40, d41, d41⟩, ?_, ?_, ?_, ?_, ?_, ?_, ?_, ?_⟩ <;> push_cast <;>
    linarith

theorem clipline_trunc_bounds {left top right bottom x1 y1 x2 y2 : Int}
    {a b c d : Frac}
    (h : clipline left top right bottom x1 y1 x2 y2 = some (a, b, c, d)) :
    (left ≤ a.trunc ∧ a.trunc ≤ right) ∧
    (top ≤ b.trunc ∧ b.trunc ≤ bottom) ∧
    (left ≤ c.trunc ∧ c.trunc ≤ right) ∧
    (top ≤ d.trunc ∧ d.trunc ≤ bottom) := by
  obtain ⟨⟨da, db, dc, dd⟩, h1, h2, h3, h4, h5, h6, h7, h8⟩ := clipline_sound h
  exact ⟨Frac.trunc_bounds da h1 h2, Frac.trunc_bounds db h3 h4,
    Frac.trunc_bounds dc h5 h6, Frac.trunc_bounds dd h7 h8⟩

/-! Helper lemmas: the Bresenham loop -/

theorem bresPoints_succ (fuel : Nat) (x1 y1 x2 y2 dx dy err sx sy : Int) :
    bresPoints (fuel + 1) x1 y1 x2 y2 dx dy err sx sy =
      if x1 = x2 ∧ y1 = y2 then ([(x1, y1)], true)
      else
        ((x1, y1) :: (bresPoints fuel (if err * 2 > dy then x1 + sx else x1)
            (if err * 2 < dx then y1 + sy else y1) x2 y2 dx dy
            (if err * 2 < dx then
              (if err * 2 > dy then err + dy else err) + dx
             else (if err * 2 > dy then err + dy else err)) sx sy).1,
         (bresPoints fuel (if err * 2 > dy then x1 + sx else x1)
            (if err * 2 < dx then y1 + sy else y1) x2 y2 dx dy
            (if err * 2 < dx then
              (if err * 2 > dy then err + dy else err) + dx
             else (if err * 2 > dy then err + dy else err)) sx sy).2) := rfl

theorem unit_sq {u : Int} (hu : u = 1 ∨ u = -1) : u * u = 1 := by
  rcases hu with rfl | rfl <;> norm_num

theorem unit_cancel {u v : Int} (hu : u = 1 ∨ u = -1) (h : v * u = 0) :
    v = 0 := by
  rcases hu with rfl | rfl <;> simpa using h

theorem getLast?_cons_of_ne_nil {α : Type} (a : α) {l : List α}
    (h : l ≠ []) : (a :: l).getLast? = l.getLast? := by
  cases l with
  | nil => exact absurd rfl h
  | cons b t => exact List.getLast?_cons_cons ..

/-- The Bresenham loop invariant: with `sx`, `sy` unit steps toward
(x2, y2), remaining distances bounded by `dx`, `-dy`, and the error
accumulator holding `dx * (1 - b) + dy * (1 - a)` for remaining
distances `a`, `b`, the loop completes within the given fuel, its first
write is (x1, y1), its last write is (x2, y2), and every write lies in
the bounding box of (x1, y1) and (x2, y2). -/
theorem bresPoints_spec (fuel : Nat) (x1 y1 x2 y2 dx dy err sx sy : Int)
    (hsx : sx = 1 ∨ sx = -1) (hsy : sy = 1 ∨ sy = -1)
    (hdx : 0 ≤ dx) (hdy : dy ≤ 0)
    (hA0 : 0 ≤ (x2 - x1) * sx) (hA1 : (x2 - x1) * sx ≤ dx)
    (hB0 : 0 ≤ (y2 - y1) * sy) (hB1 : (y2 - y1) * sy ≤ -dy)
    (herr : err = dx * (1 - (y2 - y1) * sy) + dy * (1 - (x2 - x1) * sx))
    (hfuel : (x2 - x1) * sx + (y2 - y1) * sy < (fuel : Int)) :
    (bresPoints fuel x1 y1 x2 y2 dx dy err sx sy).2 = true ∧
    (bresPoints fuel x1 y1 x2 y2 dx dy err sx sy).1.head? = some (x1, y1) ∧
    (bresPoints fuel x1 y1 x2 y2 dx dy err sx sy).1.getLast? =
      some (x2, y2) ∧
    ∀ p ∈ (bresPoints fuel x1 y1 x2 y2 dx dy err sx sy).1,
      0 ≤ (p.1 - x1) * sx ∧ 0 ≤ (x2 - p.1) * sx ∧
      0 ≤ (p.2 - y1) * sy ∧ 0 ≤ (y2 - p.2) * sy := by
  induction fuel generalizing x1 y1 err with
  | zero =>
    exfalso
    push_cast at hfuel
    linarith
  | succ fuel ih =>
    rw [bresPoints_succ]
    by_cases hend : x1 = x2 ∧ y1 = y2
    · rw [if_pos hend]
      refine ⟨rfl, rfl, ?_, ?_⟩
      · rw [hend.1, hend.2]
        rfl
      · intro p hp
        rw [List.mem_singleton] at hp
        subst hp
        exact ⟨by simp, hA0, by simp, hB0⟩
    · rw [if_neg hend]
      have hss := unit_sq hsx
      have hyy := unit_sq hsy
      have hAB : 0 < (x2 - x1) * sx ∨ 0 < (y2 - y1) * sy := by
        rcases lt_or_eq_of_le hA0 with h | h
        · exact Or.inl h
        rcases lt_or_eq_of_le hB0 with h2 | h2
        · exact Or.inr h2
        exfalso
        exact hend ⟨by have := unit_cancel hsx h.symm; omega,
                    by have := unit_cancel hsy h2.symm; omega⟩
      have hc1 : err * 2 > dy → 0 < (x2 - x1) * sx := by
        intro hc
        by_contra hno
        have hAz : (x2 - x1) * sx = 0 := le_antisymm (not_lt.mp hno) hA0
        have hBpos : 0 < (y2 - y1) * sy := by
          rcases hAB with h | h
          · exact absurd h (by rw [hAz]; exact lt_irrefl 0)
          · exact h
        have hB2 : 1 ≤ (y2 - y1) * sy := by
          have := Int.lt_iff_add_one_le.mp hBpos
          linarith
        have hprod : 0 ≤ dx * ((y2 - y1) * sy - 1) :=
          mul_nonneg hdx (by linarith)
        have h0 : dy * ((x2 - x1) * sx) = 0 := by rw [hAz]; ring
        linarith
      have hc2 : err * 2 < dx → 0 < (y2 - y1) * sy := by
        intro hc
        by_contra hno
        have hBz : (y2 - y1) * sy = 0 := le_antisymm (not_lt.mp hno) hB0
        have hApos : 0 < (x2 - x1) * sx := by
          rcases hAB with h | h
          · exact h
          · exact absurd h (by rw [hBz]; exact lt_irrefl 0)
        have hA2 : 1 ≤ (x2 - x1) * sx := by
          have := Int.lt_iff_add_one_le.mp hApos
          linarith
        have hprod : 0 ≤ (-dy) * ((x2 - x1) * sx - 1) :=
          mul_nonneg (by linarith) (by linarith)
        have h0 : dx * ((y2 - y1) * sy) = 0 := by rw [hBz]; ring
        linarith
      have hstep : err * 2 > dy ∨ err * 2 < dx := by
        by_contra hcon
        push_neg at hcon
        obtain ⟨hg1, hg2⟩ := hcon
        have hdx0 : dx = 0 := by
          have h1 : dx ≤ err * 2 := hg2
          have h2 : err * 2 ≤ dy := hg1
          linarith
        have hA' : (x2 - x1) * sx = 0 := le_antisymm (hdx0 ▸ hA1) hA0
        have hdy0 : dy = 0 := by
          have h0y : dy * ((x2 - x1) * sx) = 0 := by rw [hA']; ring
          have h0x : dx * ((y2 - y1) * sy) = 0 := by rw [hdx0]; ring
          linarith
        have hB' : (y2 - y1) * sy = 0 :=
          le_antisymm (by rw [hdy0] at hB1; linarith) hB0
        exact hend ⟨by have := unit_cancel hsx hA'; omega,
                    by have := unit_cancel hsy hB'; omega⟩
      push_cast at hfuel
      by_cases c1 : err * 2 > dy <;> by_cases c2 : err * 2 < dx
      · -- both steps
        simp only [if_pos c1, if_pos c2]
        have hA2 : 1 ≤ (x2 - x1) * sx := by
          have := Int.lt_iff_add_one_le.mp (hc1 c1)
          linarith
        have hB2 : 1 ≤ (y2 - y1) * sy := by
          have := Int.lt_iff_add_one_le.mp (hc2 c2)
          linarith
        have hstepx : (x2 - (x1 + sx)) * sx = (x2 - x1) * sx - 1 := by
          linear_combination (-1 : Int) * hss
        have hstepy : (y2 - (y1 + sy)) * sy = (y2 - y1) * sy - 1 := by
          linear_combination (-1 : Int) * hyy
        obtain ⟨ihdone, ihhead, ihlast, ihmem⟩ :=
          ih (x1 + sx) (y1 + sy) (err + dy + dx)
            (by rw [hstepx]; linarith) (by rw [hstepx]; linarith)
            (by rw [hstepy]; linarith) (by rw [hstepy]; linarith)
            (by rw [hstepx, hstepy]; linarith)
            (by rw [hstepx, hstepy]; linarith)
        have hne : (bresPoints fuel (x1 + sx) (y1 + sy) x2 y2 dx dy
            (err + dy + dx) sx sy).1 ≠ [] := by
          intro hnil
          rw [hnil] at ihhead
          exact Option.noConfusion ihhead
        refine ⟨ihdone, rfl, ?_, ?_⟩
        · rw [getLast?_cons_of_ne_nil _ hne]
          exact ihlast
        · intro p hp
          rcases List.mem_cons.mp hp with rfl | hp'
          · exact ⟨by simp, hA0, by simp, hB0⟩
          · obtain ⟨m1, m2, m3, m4⟩ := ihmem p hp'
            have t1 : (p.1 - x1) * sx = (p.1 - (x1 + sx)) * sx + 1 := by
              linear_combination hss
            have t2 : (p.2 - y1) * sy = (p.2 - (y1 + sy)) * sy + 1 := by
              linear_combination hyy
            exact ⟨by linarith, m2, by linarith, m4⟩
      · -- x step only
        simp only [if_pos c1, if_neg c2]
        have hA2 : 1 ≤ (x2 - x1) * sx := by
          have := Int.lt_iff_add_one_le.mp (hc1 c1)
          linarith
        have hstepx : (x2 - (x1 + sx)) * sx = (x2 - x1) * sx - 1 := by
          linear_combination (-1 : Int) * hss
        obtain ⟨ihdone, ihhead, ihlast, ihmem⟩ :=
          ih (x1 + sx) y1 (err + dy)
            (by rw [hstepx]; linarith) (by rw [hstepx]; linarith)
            hB0 hB1
            (by rw [hstepx]; linarith)
            (by rw [hstepx]; linarith)
        have hne : (bresPoints fuel (x1 + sx) y1 x2 y2 dx dy
            (err + dy) sx sy).1 ≠ [] := by
          intro hnil
          rw [hnil] at ihhead
          exact Option.noConfusion ihhead
        refine ⟨ihdone, rfl, ?_, ?_⟩
        · rw [getLast?_cons_of_ne_nil _ hne]
          exact ihlast
        · intro p hp
          rcases List.mem_cons.mp hp with rfl | hp'
          · exact ⟨by simp, hA0, by simp, hB0⟩
          · obtain ⟨m1, m2, m3, m4⟩ := ihmem p hp'
            have t1 : (p.1 - x1) * sx = (p.1 - (x1 + sx)) * sx + 1 := by
              linear_combination hss
            exact ⟨by linarith, m2, m3, m4⟩
      · -- y step only
        simp only [if_neg c1, if_pos c2]
        have hB2 : 1 ≤ (y2 - y1) * sy := by
          have := Int.lt_iff_add_one_le.mp (hc2 c2)
          linarith
        have hstepy : (y2 - (y1 + sy)) * sy = (y2 - y1) * sy - 1 := by
          linear_combination (-1 : Int) * hyy
        obtain ⟨ihdone, ihhead, ihlast, ihmem⟩ :=
          ih x1 (y1 + sy) (err + dx)
            hA0 hA1
            (by rw [hstepy]; linarith) (by rw [hstepy]; linarith)
            (by rw [hstepy]; linarith)
            (by rw [hstepy]; linarith)
        have hne : (bresPoints fuel x1 (y1 + sy) x2 y2 dx dy
            (err + dx) sx sy).1 ≠ [] := by
          intro hnil
          rw [hnil] at ihhead
          exact Option.noConfusion ihhead
        refine ⟨ihdone, rfl, ?_, ?_⟩
        · rw [getLast?_cons_of_ne_nil _ hne]
          exact ihlast
        · intro p hp
          rcases List.mem_cons.mp hp with rfl | hp'
          · exact ⟨by simp, hA0, by simp, hB0⟩
          · obtain ⟨m1, m2, m3, m4⟩ := ihmem p hp'
            have t2 : (p.2 - y1) * sy = (p.2 - (y1 + sy)) * sy + 1 := by
              linear_combination hyy
            exact ⟨m1, m2, by linarith, m4⟩
      · exact absurd hstep (by tauto)

/-- Soundness of the started Bresenham loop: the first pixel visited is
(x1, y1), the last is (x2, y2), and every pixel stays in the bounding
box of the two endpoints. -/
theorem bresLine_spec (x1 y1 x2 y2 : Int) :
    (bresLine x1 y1 x2 y2).head? = some (x1, y1) ∧
    (bresLine x1 y1 x2 y2).getLast? = some (x2, y2) ∧
    ∀ p ∈ bresLine x1 y1 x2 y2,
      min x1 x2 ≤ p.1 ∧ p.1 ≤ max x1 x2 ∧
      min y1 y2 ≤ p.2 ∧ p.2 ≤ max y1 y2 := by
  have habx : 0 ≤ |x2 - x1| := abs_nonneg _
  have haby : 0 ≤ |y2 - y1| := abs_nonneg _
  have hAeq : (x2 - x1) * (if x1 > x2 then (-1 : Int) else 1) = |x2 - x1| := by
    by_cases hgt : x1 > x2
    · rw [if_pos hgt, abs_of_nonpos (by omega)]
      ring
    · rw [if_neg hgt, abs_of_nonneg (by omega)]
      ring
  have hBeq : (y2 - y1) * (if y1 > y2 then (-1 : Int) else 1) = |y2 - y1| := by
    by_cases hgt : y1 > y2
    · rw [if_pos hgt, abs_of_nonpos (by omega)]
      ring
    · rw [if_neg hgt, abs_of_nonneg (by omega)]
      ring
  have hfuel : (x2 - x1) * (if x1 > x2 then (-1 : Int) else 1) +
      (y2 - y1) * (if y1 > y2 then (-1 : Int) else 1) <
      ((|x2 - x1| - -|y2 - y1|).toNat.succ : Int) := by
    rw [hAeq, hBeq]
    have := Int.toNat_of_nonneg (show (0 : Int) ≤ |x2 - x1| - -|y2 - y1| by
      omega)
    push_cast
    omega
  obtain ⟨hdone, hhead, hlast, hmem⟩ := bresPoints_spec
    (|x2 - x1| - -|y2 - y1|).toNat.succ x1 y1 x2 y2
    (|x2 - x1|) (-|y2 - y1|) (|x2 - x1| + -|y2 - y1|)
    (if x1 > x2 then -1 else 1) (if y1 > y2 then -1 else 1)
    (by split <;> simp) (by split <;> simp)
    habx (by omega)
    (by rw [hAeq]; exact habx) (by rw [hAeq])
    (by rw [hBeq]; exact haby) (by rw [hBeq]; omega)
    (by rw [hAeq, hBeq]; ring) hfuel
  refine ⟨hhead, hlast, ?_⟩
  intro p hp
  obtain ⟨m1, m2, m3, m4⟩ := hmem p hp
  constructor
  · by_cases hgt : x1 > x2
    · rw [if_pos hgt] at m1 m2
      omega
    · rw [if_neg hgt] at m1 m2
      omega
  constructor
  · by_cases hgt : x1 > x2
    · rw [if_pos hgt] at m1 m2
      omega
    · rw [if_neg hgt] at m1 m2
      omega
  constructor
  · by_cases hgt : y1 > y2
    · rw [if_pos hgt] at m3 m4
      omega
    · rw [if_neg hgt] at m3 m4
      omega
  · by_cases hgt : y1 > y2
    · rw [if_pos hgt] at m3 m4
      omega
    · rw [if_neg hgt] at m3 m4
      omega

theorem bresLine_ne_nil (x1 y1 x2 y2 : Int) : bresLine x1 y1 x2 y2 ≠ [] := by
  intro hnil
  have := (bresLine_spec x1 y1 x2 y2).1
  rw [hnil] at this
  exact Option.noConfusion this

/-- Under the SDL invariants (positive bytes-per-pixel dividing the
pitch), the Bresenham buffer offset `int(y * (pitch / bpp) + x)` is
exactly `y * (pitch / bpp) + x`. -/
theorem bresOffset_eq {pitch bpp : Int} (x y : Int) (hbpp : 0 < bpp)
    (hdvd : bpp ∣ pitch) :
    bresOffset pitch bpp x y = y * (pitch / bpp) + x := by
  obtain ⟨k, hk⟩ := hdvd
  subst hk
  unfold bresOffset Frac.trunc
  show (y * (bpp * k) + x * bpp).tdiv bpp = y * (bpp * k / bpp) + x
  rw [Int.mul_ediv_cancel_left _ hbpp.ne']
  have he : y * (bpp * k) + x * bpp = (y * k + x) * bpp := by ring
  rw [he, Int.tdiv_eq_ediv_of_dvd (dvd_mul_left bpp (y * k + x)),
    Int.mul_ediv_cancel _ hbpp.ne']

theorem writeBres_pitch (s : Surface) (c : Nat) (x1 y1 x2 y2 : Int) :
    (writeBres s c x1 y1 x2 y2).pitch = s.pitch := writeOffs_pitch ..

theorem writeBres_bpp (s : Surface) (c : Nat) (x1 y1 x2 y2 : Int) :
    (writeBres s c x1 y1 x2 y2).bpp = s.bpp := writeOffs_bpp ..

theorem writeBres_clip (s : Surface) (c : Nat) (x1 y1 x2 y2 : Int) :
    (writeBres s c x1 y1 x2 y2).clip = s.clip := writeOffs_clip ..

/-- Frame property of the diagonal rasterization: with both clipped
endpoints inside the clip rectangle's inclusive bounds, no buffer
element of a pixel outside the clip rectangle changes. -/
theorem writeBres_frame {s : Surface} (c : Nat) {x1 y1 x2 y2 px py : Int}
    (hbpp : 0 < s.bpp) (hdvd : s.bpp ∣ s.pitch)
    (hx1 : s.clip.x ≤ x1 ∧ x1 ≤ s.clip.x + s.clip.w - 1)
    (hx2 : s.clip.x ≤ x2 ∧ x2 ≤ s.clip.x + s.clip.w - 1)
    (hy1 : s.clip.y ≤ y1 ∧ y1 ≤ s.clip.y + s.clip.h - 1)
    (hy2 : s.clip.y ≤ y2 ∧ y2 ≤ s.clip.y + s.clip.h - 1)
    (hout : OutsidePix s px py) :
    (writeBres s c x1 y1 x2 y2).pixels (py * ppr s + px) =
      s.pixels (py * ppr s + px) := by
  apply writeOffs_pixels_of_not_mem
  intro hmem
  rcases List.mem_map.mp hmem with ⟨q, hq, he⟩
  obtain ⟨m1, m2, m3, m4⟩ := (bresLine_spec x1 y1 x2 y2).2.2 q hq
  rw [bresOffset_eq q.1 q.2 hbpp hdvd] at he
  have hqin : inRect s.clip q.1 q.2 := by
    constructor
    · have := le_min hx1.1 hx2.1
      omega
    constructor
    · have := max_le hx1.2 hx2.2
      omega
    constructor
    · have := le_min hy1.1 hy2.1
      omega
    · have := max_le hy1.2 hy2.2
      omega
  exact offset_ne_of_inRect hout hqin he

/-! Helper lemmas: the line rasterizer -/

theorem OutsidePix_congr {s s' : Surface} (hp : s'.pitch = s.pitch)
    (hb : s'.bpp = s.bpp) (hc : s'.clip = s.clip) {px py : Int} :
    OutsidePix s px py → OutsidePix s' px py := by
  unfold OutsidePix ppr
  rw [hp, hb, hc]
  exact id

theorem ppr_congr {s s' : Surface} (hp : s'.pitch = s.pitch)
    (hb : s'.bpp = s.bpp) : ppr s' = ppr s := by
  unfold ppr
  rw [hp, hb]

theorem lineSeg_pitch (s : Surface) (c : Nat) (w : Int) (g : Seg) :
    (lineSeg s c w g).1.pitch = s.pitch := by
  unfold lineSeg
  split
  · exact SDL_FillRect_pitch ..
  split
  · exact SDL_FillRect_pitch ..
  split
  · rfl
  · split
    · rfl
    · exact writeBres_pitch ..

theorem lineSeg_bpp (s : Surface) (c : Nat) (w : Int) (g : Seg) :
    (lineSeg s c w g).1.bpp = s.bpp := by
  unfold lineSeg
  split
  · exact SDL_FillRect_bpp ..
  split
  · exact SDL_FillRect_bpp ..
  split
  · rfl
  · split
    · rfl
    · exact writeBres_bpp ..

theorem lineSeg_clip (s : Surface) (c : Nat) (w : Int) (g : Seg) :
    (lineSeg s c w g).1.clip = s.clip := by
  unfold lineSeg
  split
  · exact SDL_FillRect_clip ..
  split
  · exact SDL_FillRect_clip ..
  split
  · rfl
  · split
    · rfl
    · exact writeBres_clip ..

/-- The per-segment loop body never raises the whole-call validation
errors: its only outcomes are success, `UnsupportedError`, or
`TypeError`. -/
theorem lineSeg_error_cases (s : Surface) (c : Nat) (w : Int) (g : Seg) :
    (lineSeg s c w g).2 = none ∨
    (lineSeg s c w g).2 = some .unsupportedError ∨
    (lineSeg s c w g).2 = some .typeError := by
  unfold lineSeg
  split
  · exact Or.inl rfl
  split
  · exact Or.inl rfl
  split
  · exact Or.inr (Or.inl rfl)
  · split
    · exact Or.inr (Or.inr rfl)
    · exact Or.inl rfl

/-- Frame property of one segment: a pixel outside the clip rectangle
keeps its value, whatever the segment does. -/
theorem lineSeg_frame {s : Surface} (c : Nat) (w : Int) (g : Seg)
    {px py : Int} (hbpp : 0 < s.bpp) (hdvd : s.bpp ∣ s.pitch)
    (hout : OutsidePix s px py) :
    (lineSeg s c w g).1.pixels (py * ppr s + px) =
      s.pixels (py * ppr s + px) := by
  unfold lineSeg
  split
  · exact SDL_FillRect_frame _ c hout
  split
  · exact SDL_FillRect_frame _ c hout
  split
  · rfl
  · split
    · rfl
    case h_2 a b a2 b2 heq =>
      obtain ⟨⟨k1, k2⟩, ⟨k3, k4⟩, ⟨k5, k6⟩, ⟨k7, k8⟩⟩ :=
        clipline_trunc_bounds heq
      exact writeBres_frame c hbpp hdvd ⟨k1, k2⟩ ⟨k5, k6⟩ ⟨k3, k4⟩ ⟨k7, k8⟩
        hout

theorem lineLoop_pitch (c : Nat) (w : Int) (segs : List Seg) :
    ∀ s : Surface, (lineLoop c w s segs).1.pitch = s.pitch := by
  induction segs with
  | nil => intro s; rfl
  | cons g rest ih =>
    intro s
    unfold lineLoop
    split
    case h_1 s' heq =>
      have h1 : s'.pitch = s.pitch := by
        have := lineSeg_pitch s c w g
        rw [heq] at this
        exact this
      rw [ih s']
      exact h1
    case h_2 s' e heq =>
      have := lineSeg_pitch s c w g
      rw [heq] at this
      exact this

theorem lineLoop_bpp (c : Nat) (w : Int) (segs : List Seg) :
    ∀ s : Surface, (lineLoop c w s segs).1.bpp = s.bpp := by
  induction segs with
  | nil => intro s; rfl
  | cons g rest ih =>
    intro s
    unfold lineLoop
    split
    case h_1 s' heq =>
      have h1 : s'.bpp = s.bpp := by
        have := lineSeg_bpp s c w g
        rw [heq] at this
        exact this
      rw [ih s']
      exact h1
    case h_2 s' e heq =>
      have := lineSeg_bpp s c w g
      rw [heq] at this
      exact this

theorem lineLoop_clip (c : Nat) (w : Int) (segs : List Seg) :
    ∀ s : Surface, (lineLoop c w s segs).1.clip = s.clip := by
  induction segs with
  | nil => intro s; rfl
  | cons g rest ih =>
    intro s
    unfold lineLoop
    split
    case h_1 s' heq =>
      have h1 : s'.clip = s.clip := by
        have := lineSeg_clip s c w g
        rw [heq] at this
        exact this
      rw [ih s']
      exact h1
    case h_2 s' e heq =>
      have := lineSeg_clip s c w g
      rw [heq] at this
      exact this

/-- The segment loop never raises the whole-call validation errors. -/
theorem lineLoop_error_cases (c : Nat) (w : Int) (segs : List Seg) :
    ∀ s : Surface,
    (lineLoop c w s segs).2 = none ∨
    (lineLoop c w s segs).2 = some .unsupportedError ∨
    (lineLoop c w s segs).2 = some .typeError := by
  induction segs with
  | nil => intro s; exact Or.inl rfl
  | cons g rest ih =>
    intro s
    unfold lineLoop
    split
    case h_1 s' heq => exact ih s'
    case h_2 s' e heq =>
      have := lineSeg_error_cases s c w g
      rw [heq] at this
      exact this

/-- Frame property of the segment loop. -/
theorem lineLoop_frame (c : Nat) (w : Int) (segs : List Seg) :
    ∀ (s : Surface) (px py : Int), 0 < s.bpp → s.bpp ∣ s.pitch →
    OutsidePix s px py →
    (lineLoop c w s segs).1.pixels (py * ppr s + px) =
      s.pixels (py * ppr s + px) := by
  induction segs with
  | nil => intro s px py _ _ _; rfl
  | cons g rest ih =>
    intro s px py hbpp hdvd hout
    unfold lineLoop
    split
    case h_1 s' heq =>
      have hp : s'.pitch = s.pitch := by
        have := lineSeg_pitch s c w g
        rw [heq] at this
        exact this
      have hb : s'.bpp = s.bpp := by
        have := lineSeg_bpp s c w g
        rw [heq] at this
        exact this
      have hc : s'.clip = s.clip := by
        have := lineSeg_clip s c w g
        rw [heq] at this
        exact this
      have hfr : s'.pixels (py * ppr s + px) = s.pixels (py * ppr s + px) := by
        have := lineSeg_frame c w g hbpp hdvd hout
        rw [heq] at this
        exact this
      calc (lineLoop c w s' rest).1.pixels (py * ppr s + px)
          = (lineLoop c w s' rest).1.pixels (py * ppr s' + px) := by
            rw [ppr_congr hp hb]
        _ = s'.pixels (py * ppr s' + px) := by
            exact ih s' px py (hb ▸ hbpp) (by rw [hb, hp]; exact hdvd)
              (OutsidePix_congr hp hb hc hout)
        _ = s'.pixels (py * ppr s + px) := by rw [ppr_congr hp hb]
        _ = s.pixels (py * ppr s + px) := hfr
    case h_2 s' e heq =>
      have := lineSeg_frame c w g hbpp hdvd hout
      rw [heq] at this
      exact this

theorem SDL_FillRects_frame (c : Nat) (rs : List Rect) :
    ∀ (s : Surface) (px py : Int), OutsidePix s px py →
    (SDL_FillRects s rs c).pixels (py * ppr s + px) =
      s.pixels (py * ppr s + px) := by
  induction rs with
  | nil => intro s px py _; rfl
  | cons r rest ih =>
    intro s px py hout
    unfold SDL_FillRects
    show (SDL_FillRects (SDL_FillRect s (some r) c) rest c).pixels _ = _
    have hp := SDL_FillRect_pitch s (some r) c
    have hb := SDL_FillRect_bpp s (some r) c
    have hc := SDL_FillRect_clip s (some r) c
    calc (SDL_FillRects (SDL_FillRect s (some r) c) rest c).pixels
          (py * ppr s + px)
        = (SDL_FillRects (SDL_FillRect s (some r) c) rest c).pixels
          (py * ppr (SDL_FillRect s (some r) c) + px) := by
          rw [ppr_congr hp hb]
      _ = (SDL_FillRect s (some r) c).pixels
          (py * ppr (SDL_FillRect s (some r) c) + px) :=
          ih _ px py (OutsidePix_congr hp hb hc hout)
      _ = (SDL_FillRect s (some r) c).pixels (py * ppr s + px) := by
          rw [ppr_congr hp hb]
      _ = s.pixels (py * ppr s + px) := SDL_FillRect_frame (some r) c hout

theorem snd_none_eq {A B : Type} : ∀ (x : A × Option B), x.2 = none →
    x = (x.1, none) := by
  rintro ⟨a, b⟩ h
  cases h
  rfl

theorem lineLoop_cons_none {s s' : Surface} {c : Nat} {w : Int} {g : Seg}
    {rest : List Seg} (he : lineSeg s c w g = (s', none)) :
    lineLoop c w s (g :: rest) = lineLoop c w s' rest := by
  show (match lineSeg s c w g with
    | (s', none) => lineLoop c w s' rest
    | (s', some e) => (s', some e)) = lineLoop c w s' rest
  rw [he]

theorem lineLoop_cons_err {s s' : Surface} {c : Nat} {w : Int} {g : Seg}
    {rest : List Seg} {e : DrawError}
    (he : lineSeg s c w g = (s', some e)) :
    lineLoop c w s (g :: rest) = (s', some e) := by
  show (match lineSeg s c w g with
    | (s', none) => lineLoop c w s' rest
    | (s', some e) => (s', some e)) = (s', some e)
  rw [he]

theorem lineSeg_vertical (s : Surface) (c : Nat) (w : Int) {g : Seg}
    (hx : g.x1 = g.x2) :
    lineSeg s c w g = (SDL_FillRect s (some (if g.y1 < g.y2 then
      ⟨g.x1 - w / 2, g.y1, w, g.y2 - g.y1⟩ else
      ⟨g.x1 - w / 2, g.y2, w, g.y1 - g.y2⟩)) c, none) := by
  unfold lineSeg
  rw [if_pos hx]

theorem lineSeg_horizontal (s : Surface) (c : Nat) (w : Int) {g : Seg}
    (hx : g.x1 ≠ g.x2) (hy : g.y1 = g.y2) :
    lineSeg s c w g = (SDL_FillRect s (some (if g.x1 < g.x2 then
      ⟨g.x1, g.y1 - w / 2, g.x2 - g.x1, w⟩ else
      ⟨g.x2, g.y1 - w / 2, g.x1 - g.x2, w⟩)) c, none) := by
  unfold lineSeg
  rw [if_neg hx, if_pos hy]

theorem lineSeg_diag_unsupported (s : Surface) (c : Nat) (w : Int) {g : Seg}
    (hx : g.x1 ≠ g.x2) (hy : g.y1 ≠ g.y2) (hw : w ≠ 1) :
    lineSeg s c w g = (s, some .unsupportedError) := by
  unfold lineSeg
  rw [if_neg hx, if_neg hy, if_pos hw]

theorem lineSeg_axis_err (s : Surface) (c : Nat) (w : Int) {g : Seg}
    (h : g.x1 = g.x2 ∨ g.y1 = g.y2) : (lineSeg s c w g).2 = none := by
  rcases h with hx | hy
  · rw [lineSeg_vertical s c w hx]
  · by_cases hx : g.x1 = g.x2
    · rw [lineSeg_vertical s c w hx]
    · rw [lineSeg_horizontal s c w hx hy]

/-- With every segment axis-aligned, the loop raises nothing. -/
theorem lineLoop_axis_all (c : Nat) (w : Int) (segs : List Seg)
    (hall : ∀ g ∈ segs, g.x1 = g.x2 ∨ g.y1 = g.y2) :
    ∀ s : Surface, (lineLoop c w s segs).2 = none := by
  induction segs with
  | nil => intro s; rfl
  | cons g rest ih =>
    intro s
    have he := snd_none_eq _ (lineSeg_axis_err s c w
      (hall g (List.mem_cons_self g rest)))
    rw [lineLoop_cons_none he]
    exact ih (fun p hp => hall p (List.mem_cons_of_mem g hp)) _

/-- With width ≠ 1, the loop runs the axis-aligned prefix and stops with
`UnsupportedError` at the first diagonal segment, keeping the writes of
the prefix. -/
theorem lineLoop_pre (c : Nat) (w : Int) (hw : w ≠ 1) (pre : List Seg) :
    ∀ (s : Surface) (g : Seg) (post : List Seg),
    (∀ p ∈ pre, p.x1 = p.x2 ∨ p.y1 = p.y2) → g.x1 ≠ g.x2 → g.y1 ≠ g.y2 →
    lineLoop c w s (pre ++ g :: post) =
      ((lineLoop c w s pre).1, some DrawError.unsupportedError) := by
  induction pre with
  | nil =>
    intro s g post _ hgx hgy
    rw [List.nil_append, lineLoop_cons_err (lineSeg_diag_unsupported s c w
      hgx hgy hw)]
    rfl
  | cons p pre' ih =>
    intro s g post hall hgx hgy
    have he := snd_none_eq _ (lineSeg_axis_err s c w
      (hall p (List.mem_cons_self p pre')))
    rw [List.cons_append, lineLoop_cons_none he,
      ih _ g post (fun q hq => hall q (List.mem_cons_of_mem p hq)) hgx hgy,
      lineLoop_cons_none he]

theorem fill_single (s : Surface) (c : Nat) (r : Rect) :
    fill s c [r] = (SDL_FillRect s (some r) c, .single (some r)) := rfl

theorem fill_pair (s : Surface) (c : Nat) (r1 r2 : Rect) :
    fill s c [r1, r2] = (SDL_FillRect s none c, .single none) := rfl

theorem SDL_FillRects_pitch (c : Nat) (rs : List Rect) :
    ∀ s : Surface, (SDL_FillRects s rs c).pitch = s.pitch := by
  induction rs with
  | nil => intro s; rfl
  | cons r rest ih =>
    intro s
    show (SDL_FillRects (SDL_FillRect s (some r) c) rest c).pitch = s.pitch
    rw [ih _, SDL_FillRect_pitch]

theorem SDL_FillRects_bpp (c : Nat) (rs : List Rect) :
    ∀ s : Surface, (SDL_FillRects s rs c).bpp = s.bpp := by
  induction rs with
  | nil => intro s; rfl
  | cons r rest ih =>
    intro s
    show (SDL_FillRects (SDL_FillRect s (some r) c) rest c).bpp = s.bpp
    rw [ih _, SDL_FillRect_bpp]

theorem line_pitch (s : Surface) (c : Nat) (d : List Int) (w : Int) :
    (line s c d w).1.pitch = s.pitch := by
  unfold line
  split_ifs
  · rfl
  · rfl
  · rfl
  · exact lineLoop_pitch c w (toSegs d) s

theorem line_bpp (s : Surface) (c : Nat) (d : List Int) (w : Int) :
    (line s c d w).1.bpp = s.bpp := by
  unfold line
  split_ifs
  · rfl
  · rfl
  · rfl
  · exact lineLoop_bpp c w (toSegs d) s

theorem fill_pitch (s : Surface) (c : Nat) (area : List Rect) :
    (fill s c area).1.pitch = s.pitch := by
  unfold fill
  split
  · exact SDL_FillRects_pitch c area s
  · split
    · exact SDL_FillRect_pitch ..
    · exact SDL_FillRect_pitch ..

theorem fill_bpp (s : Surface) (c : Nat) (area : List Rect) :
    (fill s c area).1.bpp = s.bpp := by
  unfold fill
  split
  · exact SDL_FillRects_bpp c area s
  · split
    · exact SDL_FillRect_bpp ..
    · exact SDL_FillRect_bpp ..

/-! Concrete test surfaces -/

/-- A 10x10 test surface: 32-bit pixels, pitch 40 bytes, clip rectangle
covering the whole surface, all pixels initially 0. -/
def surf10 : Surface := ⟨40, 4, ⟨0, 0, 10, 10⟩, fun _ => 0⟩

/-- A test surface with 10-element rows whose clip rectangle (0,0,5,5)
covers only part of them. -/
def surfClip5 : Surface := ⟨40, 4, ⟨0, 0, 5, 5⟩, fun _ => 0⟩

/-! Claim theorems -/

/-- C1: the claim says a diagonal width-1 segment lying entirely outside
the clip rectangle is skipped with zero pixel writes and no error.  On
the code, `clipline` returns its all-`None` sentinel for such a segment
and line 157 of `draw.py` applies `int()` to it before the `if x1 is
None` check of line 158, so the call raises a `TypeError` instead (the
surface is indeed left unwritten).  Here the segment (20,20)-(25,27)
lies entirely outside the 10×10 clip rectangle. -/
theorem C1_outside_segment_raises :
    line surf10 7 [20, 20, 25, 27] 1 = (surf10, some DrawError.typeError) :=
  rfl

/-- C2: no pixel of the target surface outside the clip rectangle is
modified by any `line` or `fill` call, under the SDL surface invariants
(positive bytes-per-pixel dividing the pitch, clip rectangle within a
buffer row, and (px, py) a genuine surface pixel outside the clip
rectangle). -/
theorem C2_no_write_outside_clip (s : Surface) (c : Nat) (d : List Int)
    (w : Int) (area : List Rect) (px py : Int)
    (hbpp : 0 < s.bpp) (hdvd : s.bpp ∣ s.pitch)
    (hout : OutsidePix s px py) :
    pixelAt (line s c d w).1 px py = pixelAt s px py ∧
    pixelAt (fill s c area).1 px py = pixelAt s px py := by
  constructor
  · unfold pixelAt
    rw [ppr_congr (line_pitch s c d w) (line_bpp s c d w)]
    unfold line
    split_ifs
    · rfl
    · rfl
    · rfl
    · exact lineLoop_frame c w (toSegs d) s px py hbpp hdvd hout
  · unfold pixelAt
    rw [ppr_congr (fill_pitch s c area) (fill_bpp s c area)]
    unfold fill
    split
    · exact SDL_FillRects_frame c area s px py hout
    · split
      · exact SDL_FillRect_frame _ c hout
      · exact SDL_FillRect_frame _ c hout

/-- Witness for C2 at a concrete input: a diagonal line and a fill on a
surface whose clip rectangle (0,0,5,5) covers only part of its
10-element rows leave the outside pixel (7,3) unchanged. -/
theorem C2_no_write_outside_clip_witness :
    (0 < surfClip5.bpp ∧ surfClip5.bpp ∣ surfClip5.pitch ∧
      OutsidePix surfClip5 7 3) ∧
    (pixelAt (line surfClip5 7 [0, 0, 3, 3] 1).1 7 3 = pixelAt surfClip5 7 3 ∧
     pixelAt (fill surfClip5 7 [⟨1, 1, 2, 2⟩]).1 7 3 =
       pixelAt surfClip5 7 3) :=
  ⟨⟨by decide, ⟨10, rfl⟩, by decide⟩,
   C2_no_write_outside_clip surfClip5 7 [0, 0, 3, 3] 1 [⟨1, 1, 2, 2⟩] 7 3
     (by decide) ⟨10, rfl⟩ (by decide)⟩

/-- C3: the width-1 diagonal from (0,0) to (3,3) on the unclipped 10×10
surface writes the packed color to exactly (0,0), (1,1), (2,2), (3,3)
and raises nothing; and in general the Bresenham loop's first write is
the first clipped endpoint and its final write — the loop breaks only
after performing it — is the second endpoint. -/
theorem C3_diagonal_endpoints_inclusive :
    ((line surf10 7 [0, 0, 3, 3] 1).2 = none ∧
     ∀ x y : Fin 10,
       pixelAt (line surf10 7 [0, 0, 3, 3] 1).1 ((x : Nat) : Int)
           ((y : Nat) : Int) =
         if (x : Nat) = (y : Nat) ∧ (x : Nat) ≤ 3 then 7 else 0) ∧
    (∀ x1 y1 x2 y2 : Int,
      (bresLine x1 y1 x2 y2).head? = some (x1, y1) ∧
      (bresLine x1 y1 x2 y2).getLast? = some (x2, y2)) :=
  ⟨⟨rfl, by decide⟩, fun x1 y1 x2 y2 =>
    ⟨(bresLine_spec x1 y1 x2 y2).1, (bresLine_spec x1 y1 x2 y2).2.1⟩⟩

/-- C4: a single-segment vertical `line` call mutates the surface
exactly as `fill` of the rectangle (x1 - w/2, min(y1,y2), w, |y2-y1|),
and a horizontal one exactly as `fill` of
(min(x1,x2), y1 - w/2, |x2-x1|, w). -/
theorem C4_axis_line_is_rect_fill (s : Surface) (c : Nat)
    (w x1 y1 x2 y2 : Int) (hw : 1 ≤ w) (hbpp : s.bpp ≠ 3) :
    (x1 = x2 → line s c [x1, y1, x2, y2] w =
      ((fill s c [⟨x1 - w / 2, min y1 y2, w, |y2 - y1|⟩]).1, none)) ∧
    (y1 = y2 → x1 ≠ x2 → line s c [x1, y1, x2, y2] w =
      ((fill s c [⟨min x1 x2, y1 - w / 2, |x2 - x1|, w⟩]).1, none)) := by
  constructor
  · intro hx
    unfold line
    rw [if_neg (show ¬ w < 1 by omega),
      if_neg (show ¬ ([x1, y1, x2, y2] : List Int).length % 4 ≠ 0 by simp),
      if_neg hbpp]
    show lineLoop c w s [⟨x1, y1, x2, y2⟩] = _
    rw [lineLoop_cons_none (lineSeg_vertical s c w (g := ⟨x1, y1, x2, y2⟩)
      hx), fill_single]
    show (SDL_FillRect s (some (if y1 < y2 then ⟨x1 - w / 2, y1, w, y2 - y1⟩
      else ⟨x1 - w / 2, y2, w, y1 - y2⟩)) c, none) = _
    have hrect : (if y1 < y2 then (⟨x1 - w / 2, y1, w, y2 - y1⟩ : Rect)
        else ⟨x1 - w / 2, y2, w, y1 - y2⟩) =
        ⟨x1 - w / 2, min y1 y2, w, |y2 - y1|⟩ := by
      split_ifs with h
      · rw [min_eq_left h.le, abs_of_nonneg (show (0 : Int) ≤ y2 - y1 by
          omega)]
      · rw [min_eq_right (by omega), abs_of_nonpos (show y2 - y1 ≤ 0 by
          omega)]
        have he : -(y2 - y1) = y1 - y2 := by ring
        rw [he]
    rw [hrect]
  · intro hy hx
    unfold line
    rw [if_neg (show ¬ w < 1 by omega),
      if_neg (show ¬ ([x1, y1, x2, y2] : List Int).length % 4 ≠ 0 by simp),
      if_neg hbpp]
    show lineLoop c w s [⟨x1, y1, x2, y2⟩] = _
    rw [lineLoop_cons_none (lineSeg_horizontal s c w (g := ⟨x1, y1, x2, y2⟩)
      hx hy), fill_single]
    show (SDL_FillRect s (some (if x1 < x2 then ⟨x1, y1 - w / 2, x2 - x1, w⟩
      else ⟨x2, y1 - w / 2, x1 - x2, w⟩)) c, none) = _
    have hrect : (if x1 < x2 then (⟨x1, y1 - w / 2, x2 - x1, w⟩ : Rect)
        else ⟨x2, y1 - w / 2, x1 - x2, w⟩) =
        ⟨min x1 x2, y1 - w / 2, |x2 - x1|, w⟩ := by
      split_ifs with h
      · rw [min_eq_left h.le, abs_of_nonneg (show (0 : Int) ≤ x2 - x1 by
          omega)]
      · rw [min_eq_right (by omega), abs_of_nonpos (show x2 - x1 ≤ 0 by
          omega)]
        have he : -(x2 - x1) = x1 - x2 := by ring
        rw [he]
    rw [hrect]

/-- Witness for C4 at the spec's concrete instance: the vertical line
from (5,2) to (5,10) with width 3 equals filling rectangle
(x=4, y=2, w=3, h=8). -/
theorem C4_axis_line_is_rect_fill_witness :
    ((1 : Int) ≤ 3 ∧ surf10.bpp ≠ 3 ∧ (5 : Int) = 5) ∧
    line surf10 7 [5, 2, 5, 10] 3 =
      ((fill surf10 7 [⟨4, 2, 3, 8⟩]).1, none) :=
  ⟨⟨by decide, by decide, rfl⟩,
   (C4_axis_line_is_rect_fill surf10 7 3 5 2 5 10 (by decide)
     (by decide)).1 rfl⟩

/-- C5 counterexample: the claim says a point list whose length is not a
positive multiple of 4 — in particular the empty list — fails with a
value error.  The code's check is `len(dline) % 4 != 0`, which accepts
length 0: the empty call completes with no error and no write. -/
theorem C5_empty_list_accepted :
    line surf10 7 ([] : List Int) 1 = (surf10, none) := rfl

/-- C5 (amended): a point list whose length is not a multiple of 4
fails with the malformed-point-list value error before any write (the
width check taking precedence when width < 1); when the length is a
multiple of 4 — including the empty list, which is accepted — no
malformed-point-list error is raised, and the empty call on a supported
surface raises nothing at all. -/
theorem C5_points_length_validation (s : Surface) (c : Nat) (d : List Int)
    (w : Int) :
    (1 ≤ w → d.length % 4 ≠ 0 →
      line s c d w = (s, some DrawError.pointsError)) ∧
    (d.length % 4 = 0 → (line s c d w).2 ≠ some DrawError.pointsError) ∧
    (1 ≤ w → s.bpp ≠ 3 → line s c ([] : List Int) w = (s, none)) := by
  refine ⟨?_, ?_, ?_⟩
  · intro hw hlen
    unfold line
    rw [if_neg (show ¬ w < 1 by omega), if_pos hlen]
  · intro hlen
    unfold line
    split_ifs with h1 h2 h3
    · exact fun h => DrawError.noConfusion (Option.some.inj h)
    · exact absurd hlen h2
    · exact fun h => DrawError.noConfusion (Option.some.inj h)
    · rcases lineLoop_error_cases c w (toSegs d) s with h | h | h <;> rw [h]
      · exact fun h => Option.noConfusion h
      · exact fun h => DrawError.noConfusion (Option.some.inj h)
      · exact fun h => DrawError.noConfusion (Option.some.inj h)
  · intro hw hbpp
    unfold line
    rw [if_neg (show ¬ w < 1 by omega),
      if_neg (show ¬ (([] : List Int).length % 4 ≠ 0) by decide),
      if_neg hbpp]
    rfl

/-- Witness for C5's amended claim: a length-3 list raises the
malformed-point-list error and leaves the surface untouched. -/
theorem C5_points_length_validation_witness :
    ((1 : Int) ≤ 1 ∧ ([1, 2, 3] : List Int).length % 4 ≠ 0) ∧
    line surf10 7 [1, 2, 3] 1 = (surf10, some DrawError.pointsError) :=
  ⟨⟨by decide, by decide⟩,
   (C5_points_length_validation surf10 7 [1, 2, 3] 1).1 (by decide)
     (by decide)⟩

/-- C6: each whole-call validation failure (width < 1, point-list length
not a multiple of 4, 3 bytes-per-pixel) raises its error before any
pixel write, returning the surface unchanged; the checks apply in the
source's order. -/
theorem C6_validation_atomic (s : Surface) (c : Nat) (d : List Int)
    (w : Int) (h : w < 1 ∨ d.length % 4 ≠ 0 ∨ s.bpp = 3) :
    line s c d w = (s, some (if w < 1 then DrawError.widthError
      else if d.length % 4 ≠ 0 then DrawError.pointsError
      else DrawError.unsupportedError)) := by
  unfold line
  split_ifs with h1 h2 h3
  · rfl
  · rfl
  · rfl
  · tauto

/-- Witness for C6: a 3-bytes-per-pixel surface raises the
not-implemented error with the surface unchanged. -/
theorem C6_validation_atomic_witness :
    ((0 : Int) < 1 ∨ ([0, 0, 5, 5] : List Int).length % 4 ≠ 0 ∨
      (⟨30, 3, ⟨0, 0, 10, 10⟩, fun _ => 0⟩ : Surface).bpp = 3) ∧
    line ⟨30, 3, ⟨0, 0, 10, 10⟩, fun _ => 0⟩ 7 [0, 0, 5, 5] 1 =
      (⟨30, 3, ⟨0, 0, 10, 10⟩, fun _ => 0⟩,
        some DrawError.unsupportedError) :=
  ⟨Or.inr (Or.inr rfl),
   C6_validation_atomic ⟨30, 3, ⟨0, 0, 10, 10⟩, fun _ => 0⟩ 7 [0, 0, 5, 5] 1
     (Or.inr (Or.inr rfl))⟩

/-- C7 counterexample: the claim says that for every call with
width ≠ 1 an error is raised only when a non-axis-aligned segment is
reached.  A width-0 call whose only segment is vertical raises the
width value error although no diagonal segment exists. -/
theorem C7_width_zero_raises_without_diagonal :
    (line surf10 7 [0, 0, 0, 5] 0).2 = some DrawError.widthError := rfl

/-- C7 (amended): for width > 1 calls passing whole-call validation, the
not-implemented error is raised exactly when a segment that is neither
vertical nor horizontal is reached — per-segment, after the
axis-aligned cases — and the writes of the preceding axis-aligned
segments are kept, not undone. -/
theorem C7_wide_diag_best_effort (s : Surface) (c : Nat) (d : List Int)
    (w : Int) (hw : 1 < w) (hlen : d.length % 4 = 0) (hbpp : s.bpp ≠ 3) :
    ((∀ g ∈ toSegs d, g.x1 = g.x2 ∨ g.y1 = g.y2) →
      (line s c d w).2 = none) ∧
    (∀ pre g post, toSegs d = pre ++ g :: post →
      (∀ p ∈ pre, p.x1 = p.x2 ∨ p.y1 = p.y2) →
      g.x1 ≠ g.x2 → g.y1 ≠ g.y2 →
      line s c d w =
        ((lineLoop c w s pre).1, some DrawError.unsupportedError)) := by
  have hline : line s c d w = lineLoop c w s (toSegs d) := by
    unfold line
    rw [if_neg (show ¬ w < 1 by omega), if_neg (show ¬ d.length % 4 ≠ 0 by
      omega), if_neg hbpp]
  constructor
  · intro hall
    rw [hline]
    exact lineLoop_axis_all c w (toSegs d) hall s
  · intro pre g post hsplit hall hgx hgy
    rw [hline, hsplit]
    exact lineLoop_pre c w (by omega) pre s g post hall hgx hgy

/-- Witness for C7's amended claim: with width 2, a vertical segment is
drawn, then the diagonal second segment raises the not-implemented
error, keeping the first segment's writes. -/
theorem C7_wide_diag_best_effort_witness :
    ((1 : Int) < 2 ∧ ([5, 2, 5, 9, 0, 0, 3, 3] : List Int).length % 4 = 0 ∧
      toSegs [5, 2, 5, 9, 0, 0, 3, 3] =
        [⟨5, 2, 5, 9⟩] ++ ⟨0, 0, 3, 3⟩ :: []) ∧
    line surf10 7 [5, 2, 5, 9, 0, 0, 3, 3] 2 =
      ((lineLoop 7 2 surf10 [⟨5, 2, 5, 9⟩]).1,
        some DrawError.unsupportedError) :=
  ⟨⟨by decide, by decide, rfl⟩,
   (C7_wide_diag_best_effort surf10 7 [5, 2, 5, 9, 0, 0, 3, 3] 2 (by decide)
     (by decide) (by decide)).2 [⟨5, 2, 5, 9⟩] ⟨0, 0, 3, 3⟩ [] rfl
     (by
       intro p hp
       rw [List.mem_singleton] at hp
       subst hp
       exact Or.inl rfl)
     (by decide) (by decide)⟩

/-- C8: `fill` dispatches on the number of normalized areas: more than 2
produce exactly one batched multi-rectangle call over the whole set,
exactly 1 produces one single-rectangle call with that rectangle, and 0
(area absent or empty) produces one whole-surface call. -/
theorem C8_fill_dispatch (s : Surface) (c : Nat) (area : List Rect) :
    (2 < area.length →
      fill s c area = (SDL_FillRects s area c, .batched area)) ∧
    (∀ r : Rect, fill s c [r] =
      (SDL_FillRect s (some r) c, .single (some r))) ∧
    (fill s c [] = (SDL_FillRect s none c, .single none)) := by
  refine ⟨?_, ?_, ?_⟩
  · intro h
    unfold fill
    rw [if_pos h]
  · intro r
    exact fill_single s c r
  · rfl

/-- Witness for C8: three areas take the batched path. -/
theorem C8_fill_dispatch_witness :
    (2 < ([⟨0, 0, 1, 1⟩, ⟨1, 1, 1, 1⟩, ⟨2, 2, 1, 1⟩] : List Rect).length) ∧
    fill surf10 7 [⟨0, 0, 1, 1⟩, ⟨1, 1, 1, 1⟩, ⟨2, 2, 1, 1⟩] =
      (SDL_FillRects surf10 [⟨0, 0, 1, 1⟩, ⟨1, 1, 1, 1⟩, ⟨2, 2, 1, 1⟩] 7,
        .batched [⟨0, 0, 1, 1⟩, ⟨1, 1, 1, 1⟩, ⟨2, 2, 1, 1⟩]) :=
  ⟨by decide,
   (C8_fill_dispatch surf10 7 [⟨0, 0, 1, 1⟩, ⟨1, 1, 1, 1⟩, ⟨2, 2, 1, 1⟩]).1
     (by decide)⟩

/-- C9: with exactly 2 areas, `fill` ignores both rectangles and takes
the whole-surface branch: the call is identical to passing no area, its
trace is the single whole-surface call, and every pixel of the clip
region receives the color. -/
theorem C9_two_areas_fill_whole_surface (s : Surface) (c : Nat)
    (r1 r2 : Rect) :
    fill s c [r1, r2] = fill s c [] ∧
    (fill s c [r1, r2]).2 = .single none ∧
    (∀ px py : Int, inRect s.clip px py →
      pixelAt (fill s c [r1, r2]).1 px py = c) := by
  refine ⟨rfl, rfl, ?_⟩
  intro px py hin
  rw [fill_pair]
  show pixelAt (SDL_FillRect s none c) px py = c
  unfold pixelAt
  rw [ppr_congr (SDL_FillRect_pitch s none c) (SDL_FillRect_bpp s none c)]
  exact SDL_FillRect_covers c hin

/-- Witness for C9: the two supplied 1×1 rectangles do not restrict the
fill; pixel (2,3) outside both still receives the color. -/
theorem C9_two_areas_fill_whole_surface_witness :
    inRect surf10.clip 2 3 ∧
    pixelAt (fill surf10 7 [⟨0, 0, 1, 1⟩, ⟨1, 1, 1, 1⟩]).1 2 3 = 7 :=
  ⟨by decide,
   (C9_two_areas_fill_whole_surface surf10 7 ⟨0, 0, 1, 1⟩
     ⟨1, 1, 1, 1⟩).2.2 2 3 (by decide)⟩

/-- C10: `prepare_color` packs through `SDL_MapRGBA` when the located
format has a non-zero alpha mask und through `SDL_MapRGB` (alpha
ignored: the result does not depend on the alpha channel) otherwise,
and raises a `TypeError` when no pixel-format descriptor can be
located; as a Lean function it is pure by construction. -/
theorem C10_prepare_color_contract (c c' : Color) (t : ColorTarget) :
    (∀ f, formatOf t = some f →
      prepare_color c t = .ok (if f.Amask ≠ 0 then
        SDL_MapRGBA f c.r c.g c.b c.a else SDL_MapRGB f c.r c.g c.b)) ∧
    (formatOf t = none → prepare_color c t = .error .typeError) ∧
    (∀ f, formatOf t = some f → f.Amask = 0 → c.r = c'.r → c.g = c'.g →
      c.b = c'.b → prepare_color c t = prepare_color c' t) := by
  refine ⟨?_, ?_, ?_⟩
  · intro f hf
    unfold prepare_color
    rw [hf]
    show (if f.Amask ≠ 0 then (Except.ok (SDL_MapRGBA f c.r c.g c.b c.a) : Except DrawError Nat)
      else Except.ok (SDL_MapRGB f c.r c.g c.b)) = _
    split_ifs <;> rfl
  · intro hf
    unfold prepare_color
    rw [hf]
  · intro f hf hA hr hg hb
    unfold prepare_color
    rw [hf]
    show (if f.Amask ≠ 0 then (Except.ok (SDL_MapRGBA f c.r c.g c.b c.a) : Except DrawError Nat)
      else Except.ok (SDL_MapRGB f c.r c.g c.b)) =
      (if f.Amask ≠ 0 then (Except.ok (SDL_MapRGBA f c'.r c'.g c'.b c'.a) : Except DrawError Nat)
      else Except.ok (SDL_MapRGB f c'.r c'.g c'.b))
    rw [if_neg (by simp [hA]), if_neg (by simp [hA]), hr, hg, hb]

/-- Witness for C10: on an alpha-less format, two colors differing only
in alpha pack identically. -/
theorem C10_prepare_color_contract_witness :
    formatOf (ColorTarget.surf ⟨0, 0, 0, 0, 0, 16, 8, 0, 24⟩) =
      some ⟨0, 0, 0, 0, 0, 16, 8, 0, 24⟩ ∧
    prepare_color ⟨1, 2, 3, 4⟩ (ColorTarget.surf ⟨0, 0, 0, 0, 0, 16, 8, 0, 24⟩) =
      prepare_color ⟨1, 2, 3, 9⟩
        (ColorTarget.surf ⟨0, 0, 0, 0, 0, 16, 8, 0, 24⟩) :=
  ⟨rfl,
   (C10_prepare_color_contract ⟨1, 2, 3, 4⟩ ⟨1, 2, 3, 9⟩
     (ColorTarget.surf ⟨0, 0, 0, 0, 0, 16, 8, 0, 24⟩)).2.2
     ⟨0, 0, 0, 0, 0, 16, 8, 0, 24⟩ rfl rfl rfl rfl rfl⟩

end Draw
